import Mathlib

/-!
Verification of the hospital discrete-event simulation (`DTA1.py` / `dta.py`).

The development shallowly embeds the parts of the program that the claims
touch:

* `ResourcePool` / `grantLoop` / `applyOp` — the `simpy.Resource` doctor pool
  created in `Hospital.__init__` (bounded capacity, slot counter, FIFO wait
  queue), together with the operations the scripts perform on it:
  `acquire` (`hospital.doctor.request()`), `release` (leaving the `with`
  block), and — for comparison with the specified behaviour — a true
  capacity expansion.  `add_doctors` embeds the source's
  `add_doctors(env, hospital, n)` routine.
* `Env` / `Cmd` / `execCmd` — the `simpy.Environment` event heap and clock
  (`env.now`, `env.timeout`, `env.run`) plus the global statistics lists
  (`arrival_times`, `wait_times`, `treated_times`,
  `left_without_treatment_times`) and the append statements the `patient`
  process executes on them; in particular `Cmd.wait` performs the source's
  `wait_times.append(env.now - arrival_times[-1])`.
* `patientAfterGrant` / `runPatients` — the tail of the `patient` body after
  the doctor grant: one `random.random()` Bernoulli draw against
  `TREAT_PROBABILITY`, and on the treated branch one sampled service
  duration awaited as a timeout.  The external random source is a stream of
  pre-drawn values, mirroring the spec's external random-variate collaborator.
* `PatientLog` and the counting functions — the end-of-run report
  (`total_patients`, `treated_count`, `left_without_treatment_count`,
  `average_wait_time`).
-/

/-- The doctor pool, modelling `simpy.Resource(env, num_doctors)` as built in
`Hospital.__init__`: `capacity` is the number of doctors, `in_use` the number
of held slots (`len(resource.users)`), and `queue` the FIFO wait queue of
pending request ids (`resource.put_queue`). -/
structure ResourcePool where
  capacity : Nat
  in_use : Nat
  queue : List Nat
deriving DecidableEq

/-- The grant loop `simpy` runs whenever a slot may have become free: while
`in_use < capacity` and the wait queue is non-empty, pop the queue head and
give it the slot.  Returns the new `in_use`, the remaining queue, and the ids
granted, in grant order. -/
def grantLoop (cap : Nat) : Nat → List Nat → Nat × List Nat × List Nat
  | u, [] => (u, [], [])
  | u, h :: t =>
    if u < cap then
      let r := grantLoop cap (u + 1) t
      (r.1, r.2.1, h :: r.2.2)
    else (u, h :: t, [])

/-- Pool state instrumented with the full history needed to state FIFO
fairness: `granted` is the list of request ids that were granted *from the
wait queue*, in grant order, and `enqueued` the list of ids that ever entered
the wait queue, in arrival order. -/
structure PoolState where
  pool : ResourcePool
  granted : List Nat
  enqueued : List Nat
deriving DecidableEq

/-- The operations the scripts perform on the doctor pool.  `acquire` and
`release` embed `simpy.Resource.request` / `.release` as used inside the
`patient` process; `expand` is the capacity increase the spec ascribes to the
pool (`capacity += by`, then the grant loop) — the source has no operation
that actually grows capacity, see `add_doctors`. -/
inductive PoolOp where
  | acquire (rid : Nat)
  | release
  | expand (k : Nat)
deriving DecidableEq

/-- One pool operation.  `acquire`: if a slot is free it is taken immediately
and the requester never enters the queue; otherwise the request id is
appended to the FIFO wait queue.  `release`: the slot count drops by one and
the grant loop runs.  `expand k`: capacity grows by `k` and the grant loop
runs (spec behaviour, for comparison). -/
def applyOp (s : PoolState) : PoolOp → PoolState
  | PoolOp.acquire rid =>
    if s.pool.in_use < s.pool.capacity then
      { s with pool := { s.pool with in_use := s.pool.in_use + 1 } }
    else
      { s with
          pool := { s.pool with queue := s.pool.queue ++ [rid] },
          enqueued := s.enqueued ++ [rid] }
  | PoolOp.release =>
    let r := grantLoop s.pool.capacity (s.pool.in_use - 1) s.pool.queue
    { pool := ⟨s.pool.capacity, r.1, r.2.1⟩,
      granted := s.granted ++ r.2.2,
      enqueued := s.enqueued }
  | PoolOp.expand k =>
    let r := grantLoop (s.pool.capacity + k) s.pool.in_use s.pool.queue
    { pool := ⟨s.pool.capacity + k, r.1, r.2.1⟩,
      granted := s.granted ++ r.2.2,
      enqueued := s.enqueued }

/-- Apply a sequence of pool operations. -/
def applyOps (s : PoolState) (ops : List PoolOp) : PoolState :=
  ops.foldl applyOp s

/-- The pool of a freshly built `Hospital` with `c` doctors: no slot held, no
waiter, no history. -/
def initState (c : Nat) : PoolState :=
  ⟨⟨c, 0, []⟩, [], []⟩

/-- The source's `add_doctors(env, hospital, n)`: it issues `n` bare
`hospital.doctor.request()` calls (here with request ids `rids`) that are
never released.  It does not touch the resource's capacity — the code comment
itself says the doctor count increase is "only informational". -/
def add_doctors (s : PoolState) (rids : List Nat) : PoolState :=
  rids.foldl (fun st rid => applyOp st (PoolOp.acquire rid)) s

lemma grantLoop_in_use_le (cap : Nat) :
    ∀ (q : List Nat) (u : Nat), u ≤ cap → (grantLoop cap u q).1 ≤ cap := by
  intro q
  induction q with
  | nil => intro u hu; simpa [grantLoop] using hu
  | cons h t ih =>
    intro u hu
    by_cases hlt : u < cap
    · simpa [grantLoop, hlt] using ih (u + 1) hlt
    · simpa [grantLoop, hlt] using hu

lemma grantLoop_queue_decomp (cap : Nat) :
    ∀ (q : List Nat) (u : Nat),
      (grantLoop cap u q).2.2 ++ (grantLoop cap u q).2.1 = q := by
  intro q
  induction q with
  | nil => intro u; simp [grantLoop]
  | cons h t ih =>
    intro u
    by_cases hlt : u < cap
    · simp [grantLoop, hlt, ih (u + 1)]
    · simp [grantLoop, hlt]

/-- The two pool invariants: the slot count never exceeds capacity, and the
ids ever enqueued are exactly the ids granted from the queue followed by the
ids still waiting — i.e. grants happen in FIFO order. -/
def PoolInv (s : PoolState) : Prop :=
  s.pool.in_use ≤ s.pool.capacity ∧
  s.enqueued = s.granted ++ s.pool.queue

lemma poolInv_applyOp (s : PoolState) (op : PoolOp) (h : PoolInv s) :
    PoolInv (applyOp s op) := by
  obtain ⟨hle, hq⟩ := h
  cases op with
  | acquire rid =>
    by_cases hlt : s.pool.in_use < s.pool.capacity
    · exact ⟨by simp only [applyOp, if_pos hlt]; exact hlt, by simp [applyOp, hlt, hq]⟩
    · refine ⟨by simpa [applyOp, hlt] using hle, ?_⟩
      simp [applyOp, hlt, hq]
  | release =>
    refine ⟨?_, ?_⟩
    · exact grantLoop_in_use_le _ _ _ (le_trans (Nat.sub_le _ _) hle)
    · simp only [applyOp, hq, List.append_assoc,
        grantLoop_queue_decomp s.pool.capacity s.pool.queue (s.pool.in_use - 1)]
  | expand k =>
    refine ⟨?_, ?_⟩
    · exact grantLoop_in_use_le _ _ _ (le_trans hle (Nat.le_add_right _ _))
    · simp only [applyOp, hq, List.append_assoc,
        grantLoop_queue_decomp (s.pool.capacity + k) s.pool.queue s.pool.in_use]

lemma poolInv_applyOps (ops : List PoolOp) :
    ∀ (s : PoolState), PoolInv s → PoolInv (applyOps s ops) := by
  induction ops with
  | nil => intro s h; simpa [applyOps] using h
  | cons op rest ih =>
    intro s h
    have h1 : PoolInv (applyOp s op) := poolInv_applyOp s op h
    simpa [applyOps, List.foldl_cons] using ih (applyOp s op) h1

lemma poolInv_init (c : Nat) : PoolInv (initState c) := by
  constructor <;> simp [initState]

/-- C2: for every initial capacity and every sequence of acquire, release and
expand operations starting from the fresh pool, the number of slots in use
never exceeds the pool's capacity.  (Every intermediate state is itself
`applyOps (initState c) ops` for the corresponding prefix `ops`, so this
covers the state after each operation.) -/
theorem claim_C2_in_use_le_capacity (c : Nat) (ops : List PoolOp) :
    (applyOps (initState c) ops).pool.in_use ≤
      (applyOps (initState c) ops).pool.capacity :=
  (poolInv_applyOps ops (initState c) (poolInv_init c)).1

/-- C3: FIFO fairness of the doctor pool.  After any sequence of operations
from the fresh pool, the list of ids ever enqueued equals the list of ids
granted from the queue (in grant order) followed by the ids still waiting (in
arrival order): slots are granted in exactly enqueue order, the longest
waiter first, ties resolved by insertion sequence (list position). -/
theorem claim_C3_fifo_grants (c : Nat) (ops : List PoolOp) :
    (applyOps (initState c) ops).enqueued =
      (applyOps (initState c) ops).granted ++
        (applyOps (initState c) ops).pool.queue :=
  (poolInv_applyOps ops (initState c) (poolInv_init c)).2

/-- C1: evaluating the source's `add_doctors` at the situation the claim
describes — capacity 2, both doctors busy, one patient (id 7) queued, at
`t = 100` — shows the claim fails on the code: `add_doctors` with two fresh
request ids (101, 102) leaves capacity at 2 (not 4) and merely appends its
two never-released requests to the wait queue, granting nothing; the spec's
`expand 2` on the same state would read capacity 4 and grant the queued
patient at once. -/
theorem claim_C1_add_doctors_is_not_expand :
    (add_doctors ⟨⟨2, 2, [7]⟩, [], [7]⟩ [101, 102]).pool.capacity = 2 ∧
    (add_doctors ⟨⟨2, 2, [7]⟩, [], [7]⟩ [101, 102]).pool.queue = [7, 101, 102] ∧
    (add_doctors ⟨⟨2, 2, [7]⟩, [], [7]⟩ [101, 102]).granted = [] ∧
    (applyOp ⟨⟨2, 2, [7]⟩, [], [7]⟩ (PoolOp.expand 2)).pool.capacity = 4 ∧
    (applyOp ⟨⟨2, 2, [7]⟩, [], [7]⟩ (PoolOp.expand 2)).granted = [7] ∧
    (2 : Nat) ≠ 4 := by
  decide

/-- A pending event of the `simpy` environment's heap: its scheduled `time`
and the monotonic insertion counter `seq` (simpy's event id) used as the
tie-break — the heap orders entries by `(time, eid)`. -/
structure Event where
  time : ℚ
  seq : Nat
deriving DecidableEq

/-- The heap order `env.run` pops by: earlier time first, ties at equal time
broken by the insertion counter. -/
def eventLe (a b : Event) : Prop :=
  a.time < b.time ∨ (a.time = b.time ∧ a.seq ≤ b.seq)

instance eventLe.decRel : DecidableRel eventLe := fun a b => by
  unfold eventLe; infer_instance

instance eventLe.total : IsTotal Event eventLe :=
  ⟨fun a b => by
    rcases lt_trichotomy a.time b.time with h | h | h
    · exact Or.inl (Or.inl h)
    · rcases Nat.le_total a.seq b.seq with hs | hs
      · exact Or.inl (Or.inr ⟨h, hs⟩)
      · exact Or.inr (Or.inr ⟨h.symm, hs⟩)
    · exact Or.inr (Or.inl h)⟩

instance eventLe.trans : IsTrans Event eventLe :=
  ⟨fun a b c hab hbc => by
    rcases hab with h1 | ⟨h1, s1⟩
    · rcases hbc with h2 | ⟨h2, s2⟩
      · exact Or.inl (h1.trans h2)
      · exact Or.inl (lt_of_lt_of_eq h1 h2)
    · rcases hbc with h2 | ⟨h2, s2⟩
      · exact Or.inl (lt_of_eq_of_lt h1 h2)
      · exact Or.inr ⟨h1.trans h2, s1.trans s2⟩⟩

instance eventLe.antisymm : IsAntisymm Event eventLe :=
  ⟨fun a b hab hba => by
    rcases hab with h1 | ⟨h1, s1⟩
    · rcases hba with h2 | ⟨h2, s2⟩
      · exact absurd (h1.trans h2) (lt_irrefl _)
      · exact absurd (lt_of_lt_of_eq h1 h2) (lt_irrefl _)
    · rcases hba with h2 | ⟨h2, s2⟩
      · exact absurd (lt_of_lt_of_eq h2 h1) (lt_irrefl _)
      · cases a with
        | mk ta sa =>
          cases b with
          | mk tb sb =>
            simp only [Event.mk.injEq]
            exact ⟨h1, Nat.le_antisymm s1 s2⟩⟩

/-- The time component of the heap order. -/
lemma eventLe.time_le {a b : Event} (h : eventLe a b) : a.time ≤ b.time := by
  rcases h with h | ⟨h, _⟩
  · exact le_of_lt h
  · exact le_of_eq h

/-- The `simpy.Environment` together with the module-level statistics lists
of `DTA1.py`: the virtual clock `now`, the insertion counter for event ids,
the pending-event heap (kept as a list sorted by `(time, seq)`), and the four
global lists `arrival_times`, `wait_times`, `treated_times`,
`left_without_treatment_times`. -/
structure Env where
  now : ℚ
  nextSeq : Nat
  queue : List Event
  arrival_times : List ℚ
  wait_times : List ℚ
  treated_times : List ℚ
  left_without_treatment_times : List ℚ
deriving DecidableEq

/-- The primitive steps of a run, as the source performs them.
`timeout d` is `env.timeout(d)` (schedules an event at `now + d`; simpy
rejects a negative delay, modelled as a no-op guard); `step` is one iteration
of `env.run`: pop the earliest pending event and jump the clock to its time;
`arrive` is `arrival_times.append(env.now)`; `wait` is the grant-time
statement `wait_times.append(env.now - arrival_times[-1])` (a no-op when no
arrival was recorded, as in the source where the patient itself recorded
one); `treat` and `leave` append `env.now` to the respective outcome list. -/
inductive Cmd where
  | timeout (delay : ℚ)
  | step
  | arrive
  | wait
  | treat
  | leave
deriving DecidableEq

/-- Execute one step on the environment. -/
def execCmd (e : Env) : Cmd → Env
  | Cmd.timeout d =>
    if 0 ≤ d then
      { e with
          nextSeq := e.nextSeq + 1,
          queue := e.queue.orderedInsert eventLe ⟨e.now + d, e.nextSeq⟩ }
    else e
  | Cmd.step =>
    match e.queue with
    | [] => e
    | ev :: rest => { e with now := ev.time, queue := rest }
  | Cmd.arrive => { e with arrival_times := e.arrival_times ++ [e.now] }
  | Cmd.wait =>
    match e.arrival_times.getLast? with
    | none => e
    | some a => { e with wait_times := e.wait_times ++ [e.now - a] }
  | Cmd.treat => { e with treated_times := e.treated_times ++ [e.now] }
  | Cmd.leave =>
    { e with
        left_without_treatment_times :=
          e.left_without_treatment_times ++ [e.now] }

/-- The environment at the start of a run: clock at 0, nothing pending,
empty statistics. -/
def env0 : Env := ⟨0, 0, [], [], [], [], []⟩

/-- A whole run: execute the steps in order from the fresh environment. -/
def run (cmds : List Cmd) : Env := cmds.foldl execCmd env0

/-- Run invariant: the heap is sorted by `(time, seq)`, every pending event
lies at or after the clock, every recorded arrival lies at or before the
clock, and every recorded wait time is non-negative. -/
def EnvInv (e : Env) : Prop :=
  e.queue.Sorted eventLe ∧
  (∀ ev ∈ e.queue, e.now ≤ ev.time) ∧
  (∀ a ∈ e.arrival_times, a ≤ e.now) ∧
  (∀ w ∈ e.wait_times, 0 ≤ w)

lemma envInv_execCmd (e : Env) (c : Cmd) (h : EnvInv e) :
    EnvInv (execCmd e c) := by
  obtain ⟨hs, hq, ha, hw⟩ := h
  cases c with
  | timeout d =>
    by_cases hd : 0 ≤ d
    · refine ⟨?_, ?_, ?_, ?_⟩
      · simpa [execCmd, hd] using hs.orderedInsert ⟨e.now + d, e.nextSeq⟩ e.queue
      · intro ev hev
        simp only [execCmd, if_pos hd] at hev ⊢
        rcases (List.mem_orderedInsert eventLe).1 hev with rfl | hmem
        · simpa using hd
        · exact hq ev hmem
      · simpa [execCmd, hd] using ha
      · simpa [execCmd, hd] using hw
    · simpa [execCmd, hd] using ⟨hs, hq, ha, hw⟩
  | step =>
    cases hql : e.queue with
    | nil => simpa [execCmd, hql] using ⟨hs, hq, ha, hw⟩
    | cons ev rest =>
      rw [hql] at hs hq
      refine ⟨?_, ?_, ?_, ?_⟩
      · simpa [execCmd, hql] using (List.sorted_cons.mp hs).2
      · intro ev2 hev2
        simp only [execCmd, hql] at hev2 ⊢
        exact eventLe.time_le ((List.sorted_cons.mp hs).1 ev2 hev2)
      · intro a haa
        simp only [execCmd, hql] at haa ⊢
        exact le_trans (ha a haa) (hq ev (List.mem_cons_self ev rest))
      · simpa [execCmd, hql] using hw
  | arrive =>
    refine ⟨by simpa [execCmd] using hs, by simpa [execCmd] using hq, ?_,
      by simpa [execCmd] using hw⟩
    intro a haa
    simp only [execCmd, List.mem_append, List.mem_singleton] at haa ⊢
    rcases haa with haa | rfl
    · exact ha a haa
    · exact le_refl _
  | wait =>
    cases hgl : e.arrival_times.getLast? with
    | none => simpa [execCmd, hgl] using ⟨hs, hq, ha, hw⟩
    | some a =>
      refine ⟨by simpa [execCmd, hgl] using hs, by simpa [execCmd, hgl] using hq,
        by simpa [execCmd, hgl] using ha, ?_⟩
      intro w hww
      simp only [execCmd, hgl, List.mem_append, List.mem_singleton] at hww ⊢
      rcases hww with hww | rfl
      · exact hw w hww
      · have hmem : a ∈ e.arrival_times := by
          obtain ⟨hne, heq⟩ := List.mem_getLast?_eq_getLast hgl
          exact heq ▸ List.getLast_mem hne
        linarith [ha a hmem]
  | treat =>
    exact ⟨by simpa [execCmd] using hs, by simpa [execCmd] using hq,
      by simpa [execCmd] using ha, by simpa [execCmd] using hw⟩
  | leave =>
    exact ⟨by simpa [execCmd] using hs, by simpa [execCmd] using hq,
      by simpa [execCmd] using ha, by simpa [execCmd] using hw⟩

lemma now_le_execCmd (e : Env) (c : Cmd) (h : EnvInv e) :
    e.now ≤ (execCmd e c).now := by
  obtain ⟨hs, hq, ha, hw⟩ := h
  cases c with
  | timeout d => by_cases hd : 0 ≤ d <;> simp [execCmd, hd]
  | step =>
    cases hql : e.queue with
    | nil => simp [execCmd, hql]
    | cons ev rest =>
      simpa [execCmd, hql] using hq ev (hql ▸ List.mem_cons_self ev rest)
  | arrive => simp [execCmd]
  | wait => cases hgl : e.arrival_times.getLast? <;> simp [execCmd, hgl]
  | treat => simp [execCmd]
  | leave => simp [execCmd]

lemma envInv_env0 : EnvInv env0 := by
  refine ⟨?_, ?_, ?_, ?_⟩ <;> simp [env0]

lemma envInv_foldl (cmds : List Cmd) :
    ∀ (e : Env), EnvInv e → EnvInv (cmds.foldl execCmd e) := by
  induction cmds with
  | nil => intro e h; simpa using h
  | cons c rest ih =>
    intro e h
    simpa [List.foldl_cons] using ih (execCmd e c) (envInv_execCmd e c h)

lemma run_inv (cmds : List Cmd) : EnvInv (run cmds) :=
  envInv_foldl cmds env0 envInv_env0

/-- The successive values of the virtual clock over a whole run, one entry
per executed step (the `scanl` of the step function), starting at 0. -/
def nowTrace (cmds : List Cmd) : List ℚ :=
  (List.scanl execCmd env0 cmds).map Env.now

lemma scanl_now_head (e : Env) (cmds : List Cmd) :
    ((List.scanl execCmd e cmds).map Env.now).head? = some e.now := by
  cases cmds <;> simp [List.scanl]

lemma chain_nowTrace (cmds : List Cmd) :
    ∀ (e : Env), EnvInv e →
      List.Chain' (· ≤ ·) ((List.scanl execCmd e cmds).map Env.now) := by
  induction cmds with
  | nil => intro e h; simp [List.scanl]
  | cons c rest ih =>
    intro e h
    rw [List.scanl_cons, List.singleton_append, List.map_cons, List.chain'_cons']
    refine ⟨?_, ih (execCmd e c) (envInv_execCmd e c h)⟩
    intro y hy
    rw [scanl_now_head] at hy
    rw [Option.mem_def, Option.some.injEq] at hy
    exact hy ▸ now_le_execCmd e c h

/-- C9: the simulated clock never decreases.  For every sequence of run
steps from the fresh environment, the observed sequence of clock values is
monotonically non-decreasing; the clock moves only when `step` jumps it to
the time of the next pending event, which the invariant keeps at or after
the current time. -/
theorem claim_C9_clock_monotone (cmds : List Cmd) :
    List.Chain' (· ≤ ·) (nowTrace cmds) :=
  chain_nowTrace cmds env0 envInv_env0

/-- C10: every element appended to `wait_times` is non-negative — at the
moment of a grant the clock is at or after the most recently recorded
arrival, so `env.now - arrival_times[-1] ≥ 0`. -/
theorem claim_C10_wait_times_nonneg (cmds : List Cmd) (w : ℚ)
    (hw : w ∈ (run cmds).wait_times) : 0 ≤ w :=
  (run_inv cmds).2.2.2 w hw

/-- Witness for C10 at a concrete run: arrive at `t = 0`, advance the clock
to `t = 2`, record the wait; the recorded value `2` is non-negative. -/
theorem claim_C10_witness : (0 : ℚ) ≤ 2 :=
  claim_C10_wait_times_nonneg [Cmd.arrive, Cmd.timeout 2, Cmd.step, Cmd.wait]
    2 (by norm_num [run, execCmd, env0, List.orderedInsert])

/-- C5: the run is deterministic.  The only possible source of order
ambiguity, the pending-event heap, resolves ties deterministically: the
sorted-by-`(time, seq)` arrangement of the pending events of any run is
unique (any sorted permutation of the heap is the heap itself), so the
event-time sequence popped by `env.run`, and with it every downstream
statistic, is a function of the seed and parameters alone. -/
theorem claim_C5_deterministic_event_order (cmds : List Cmd) (l : List Event)
    (hp : l.Perm (run cmds).queue) (hs : l.Sorted eventLe) :
    l = (run cmds).queue :=
  List.eq_of_perm_of_sorted hp hs (run_inv cmds).1

/-- Witness for C5 at a concrete run: two timeouts scheduled out of time
order; the unique sorted arrangement is the heap the run built. -/
theorem claim_C5_witness :
    [Event.mk 0 1, Event.mk 1 0] = (run [Cmd.timeout 1, Cmd.timeout 0]).queue := by
  have hq : (run [Cmd.timeout 1, Cmd.timeout 0]).queue =
      [Event.mk 0 1, Event.mk 1 0] := by
    norm_num [run, execCmd, env0, List.orderedInsert, eventLe]
  have h01 : eventLe (Event.mk 0 1) (Event.mk 1 0) := Or.inl (by norm_num)
  have hsort : List.Sorted eventLe [Event.mk 0 1, Event.mk 1 0] :=
    List.sorted_cons.mpr ⟨by simpa using h01, List.sorted_singleton _⟩
  exact claim_C5_deterministic_event_order [Cmd.timeout 1, Cmd.timeout 0]
    [Event.mk 0 1, Event.mk 1 0] (by rw [hq]) hsort

/-- The run the C4 counterexample evaluates: patient A arrives at `t = 0`
and waits; the clock advances to `t = 3` where patient B arrives; the clock
advances to `t = 5` where A is granted a doctor and the source records its
wait time. -/
def c4Trace : List Cmd :=
  [Cmd.arrive, Cmd.timeout 3, Cmd.step, Cmd.arrive, Cmd.timeout 2, Cmd.step,
    Cmd.wait]

/-- C4: evaluating the source's grant-time statement
`wait_times.append(env.now - arrival_times[-1])` on the `c4Trace` run: the
waiting patient arrived at `0`, but because patient B's arrival `3` was
recorded meanwhile, the code records `5 - 3 = 2`, not the claimed
`now − own arrival = 5 - 0`. -/
theorem claim_C4_wait_uses_last_global_arrival :
    (run c4Trace).arrival_times = [0, 3] ∧
    (run c4Trace).now = 5 ∧
    (run c4Trace).wait_times = [2] ∧
    (2 : ℚ) ≠ 5 - 0 := by
  refine ⟨?_, ?_, ?_, ?_⟩ <;>
    norm_num [c4Trace, run, execCmd, env0, List.orderedInsert, eventLe]

/-- The two ways a patient resolves in the `patient` process: the treated
branch (`treated_times.append`) or leaving without treatment
(`left_without_treatment_times.append`). -/
inductive Outcome where
  | treated
  | abandoned
deriving DecidableEq

/-- What one granted patient produces: its outcome and the clock value at
which it resolves. -/
structure PatientRes where
  outcome : Outcome
  resolveTime : ℚ
deriving DecidableEq

/-- The tail of the `patient` body after the doctor grant at time `g`,
drawing from the external random source `s` (a stream of pre-drawn values,
the spec's random-variate collaborator): `s 0` is the `random.random()`
draw compared against `TREAT_PROBABILITY = p`; on the treated branch `s 1`
is the sampled service duration (`random.expovariate(1 / treatment_time)`)
awaited as a timeout, so the patient resolves at `g + s 1` having consumed
two draws; on the abandon branch the patient resolves at `g` at once having
consumed only the one Bernoulli draw. -/
def patientAfterGrant (p g : ℚ) (s : Stream' ℚ) : PatientRes × Stream' ℚ :=
  if s 0 < p then (⟨Outcome.treated, g + s 1⟩, s.drop 2)
  else (⟨Outcome.abandoned, g⟩, s.drop 1)

/-- Run the post-grant bodies of a sequence of patients granted at the given
times, threading the random stream from one patient to the next. -/
def runPatients (p : ℚ) : List ℚ → Stream' ℚ → List PatientRes
  | [], _ => []
  | g :: gs, s =>
    let r := patientAfterGrant p g s
    r.1 :: runPatients p gs r.2

/-- The number of treated patients among the results
(`len(treated_times)` restricted to these patients). -/
def treatedCountOf (rs : List PatientRes) : Nat :=
  rs.countP fun r => r.outcome == Outcome.treated

/-- C8: with `treat_probability = 0.0`, since `random.random()` returns a
value `≥ 0`, the comparison `random.random() < 0.0` is false for every
granted patient: each one abandons immediately at its grant time, consuming
exactly the one Bernoulli draw (the service-duration distribution is never
sampled — the stream advances by one position), and the treated count of any
such run is 0. -/
theorem claim_C8_treat_probability_zero (s : Stream' ℚ) (h : ∀ n, 0 ≤ s n) :
    (∀ g, patientAfterGrant 0 g s = (⟨Outcome.abandoned, g⟩, s.drop 1)) ∧
    (∀ gs, runPatients 0 gs s =
      gs.map fun g => ⟨Outcome.abandoned, g⟩) ∧
    ∀ gs, treatedCountOf (runPatients 0 gs s) = 0 := by
  have hstep : ∀ (t : Stream' ℚ), (∀ n, 0 ≤ t n) →
      ∀ g, patientAfterGrant 0 g t = (⟨Outcome.abandoned, g⟩, t.drop 1) := by
    intro t ht g
    have : ¬ t 0 < 0 := not_lt.mpr (ht 0)
    simp [patientAfterGrant, this]
  have hrun : ∀ (gs : List ℚ) (t : Stream' ℚ), (∀ n, 0 ≤ t n) →
      runPatients 0 gs t = gs.map fun g => ⟨Outcome.abandoned, g⟩ := by
    intro gs
    induction gs with
    | nil => intro t ht; simp [runPatients]
    | cons g rest ih =>
      intro t ht
      have hd : ∀ n, 0 ≤ (t.drop 1) n := fun n => ht (n + 1)
      simp [runPatients, hstep t ht g, ih (t.drop 1) hd]
  refine ⟨hstep s h, fun gs => hrun gs s h, ?_⟩
  intro gs
  rw [hrun gs s h]
  simp [treatedCountOf, List.countP_eq_zero]

/-- Witness for C8: two patients granted at times 0 and 3 under the constant
stream of draws `1/2` all abandon at their grant times and none is treated. -/
theorem claim_C8_witness :
    runPatients 0 [0, 3] (Stream'.const (1 / 2)) =
      [⟨Outcome.abandoned, 0⟩, ⟨Outcome.abandoned, 3⟩] ∧
    treatedCountOf (runPatients 0 [0, 3] (Stream'.const (1 / 2))) = 0 := by
  have h := claim_C8_treat_probability_zero (Stream'.const (1 / 2))
    (fun n => by norm_num [Stream'.const])
  exact ⟨by simpa using h.2.1 [0, 3], h.2.2 [0, 3]⟩

/-- The resolution status of a spawned patient at the end of a run: either
still in flight (waiting for a doctor or mid-treatment when the clock
stopped) or resolved with an outcome at a time. -/
inductive PStatus where
  | unresolved
  | done (o : Outcome) (t : ℚ)
deriving DecidableEq

/-- One spawned patient's contribution to the module-level statistics lists:
the patient appends its arrival time to `arrival_times` when it starts, and,
exactly when it resolves, appends the resolution time to `treated_times` (if
the Bernoulli draw chose treatment) or to `left_without_treatment_times`
(otherwise) — one list or the other, never both. -/
structure PatientLog where
  arrival : ℚ
  status : PStatus
deriving DecidableEq

/-- The `arrival_times` entries contributed by the run's patients. -/
def arrivalTimesOf (l : List PatientLog) : List ℚ :=
  l.map PatientLog.arrival

/-- The `treated_times` entries contributed by the run's patients. -/
def treatedTimesOf (l : List PatientLog) : List ℚ :=
  l.filterMap fun r =>
    match r.status with
    | PStatus.done Outcome.treated t => some t
    | _ => none

/-- The `left_without_treatment_times` entries contributed by the run's
patients. -/
def leftTimesOf (l : List PatientLog) : List ℚ :=
  l.filterMap fun r =>
    match r.status with
    | PStatus.done Outcome.abandoned t => some t
    | _ => none

/-- The report line `total_patients = len(arrival_times)`. -/
def total_patients (l : List PatientLog) : Nat :=
  (arrivalTimesOf l).length

/-- The report line `treated_count = len(treated_times)`. -/
def treated_count (l : List PatientLog) : Nat :=
  (treatedTimesOf l).length

/-- The report line
`left_without_treatment_count = len(left_without_treatment_times)`. -/
def left_without_treatment_count (l : List PatientLog) : Nat :=
  (leftTimesOf l).length

/-- C6: at the end of any run in which every spawned patient resolved, the
treated count plus the abandoned count equals the total number of arrivals —
each patient recorded exactly one arrival and, having resolved, appended to
exactly one of the two outcome lists. -/
theorem claim_C6_outcome_conservation (l : List PatientLog)
    (h : ∀ r ∈ l, r.status ≠ PStatus.unresolved) :
    treated_count l + left_without_treatment_count l = total_patients l := by
  induction l with
  | nil => simp [treated_count, left_without_treatment_count, total_patients,
      treatedTimesOf, leftTimesOf, arrivalTimesOf]
  | cons r rest ih =>
    have hrest : ∀ x ∈ rest, x.status ≠ PStatus.unresolved :=
      fun x hx => h x (List.mem_cons_of_mem r hx)
    have ihr := ih hrest
    cases hst : r.status with
    | unresolved => exact absurd hst (h r (List.mem_cons_self r rest))
    | done o t =>
      cases o with
      | treated =>
        simp only [treated_count, left_without_treatment_count, total_patients,
          treatedTimesOf, leftTimesOf, arrivalTimesOf, List.filterMap_cons,
          List.map_cons, List.length_cons, hst] at ihr ⊢
        omega
      | abandoned =>
        simp only [treated_count, left_without_treatment_count, total_patients,
          treatedTimesOf, leftTimesOf, arrivalTimesOf, List.filterMap_cons,
          List.map_cons, List.length_cons, hst] at ihr ⊢
        omega

/-- Witness for C6: a concrete finished run of two patients, one treated at
`t = 4` and one that left at `t = 5`; the counts add up to the two
arrivals. -/
theorem claim_C6_witness :
    treated_count
        [⟨0, PStatus.done Outcome.treated 4⟩,
          ⟨1, PStatus.done Outcome.abandoned 5⟩] +
      left_without_treatment_count
        [⟨0, PStatus.done Outcome.treated 4⟩,
          ⟨1, PStatus.done Outcome.abandoned 5⟩] =
    total_patients
        [⟨0, PStatus.done Outcome.treated 4⟩,
          ⟨1, PStatus.done Outcome.abandoned 5⟩] :=
  claim_C6_outcome_conservation _ (by
    intro r hr
    simp only [List.mem_cons, List.not_mem_nil, or_false] at hr
    rcases hr with rfl | rfl <;> simp)

/-- The value of the average-wait-time report: a finite rational average or
the `float('inf')` sentinel. -/
inductive AvgResult where
  | val (q : ℚ)
  | infinite
deriving DecidableEq

/-- The report line
`average_wait_time = sum(wait_times) / len(wait_times) if wait_times else float('inf')`:
when the recorded-wait list is non-empty the finite average, otherwise the
explicit infinity sentinel.  The function is total — the division is only
taken on a non-empty list — so the computation cannot raise. -/
def average_wait_time (ws : List ℚ) : AvgResult :=
  if ws.isEmpty then AvgResult.infinite
  else AvgResult.val (ws.sum / ws.length)

/-- C7: the average over an empty wait-time collection is the explicit
infinity sentinel — in particular it is not the silent `0` (nor any other
finite value), and no division by zero is performed since the guard takes
the sentinel branch. -/
theorem claim_C7_empty_average_sentinel :
    average_wait_time [] = AvgResult.infinite ∧
    ∀ q : ℚ, AvgResult.infinite ≠ AvgResult.val q := by
  exact ⟨rfl, fun q => by simp⟩
